import Mathlib

/-!
# Verification of the batch Google-Maps scraping orchestrator

A shallow embedding of the orchestration core of `batch_scrape.py`
(together with the interface of `google_maps_scraping.py` it consumes),
with theorems settling the specification claims about it.

Conventions of the embedding:
* Python lists become `List`, Python dicts used as key→value stores become
  functions `String → Option _` (only `d[k] = v`, `k in d`, `d[k]` are used
  by the source, so pointwise update/lookup is a faithful model), and the
  `seen` sets of the source's loops become `List`s queried by membership.
* JSON values read from artifacts are modelled by the inductive `J`;
  machine floats never enter any compared or computed position of the
  claims, so review ratings are carried as exact rationals.
* Fallible Python functions (uncaught exceptions) return `Except`;
  functions whose body catches every exception are total.
-/

namespace BatchScrape

/-! ## Generic first-occurrence deduplication

Several loops of the source share one shape: walk a list keeping a `seen`
set, and keep each element's first occurrence only.  `firstOccs` is the
canonical form of that shape; the loops of the source are each proved
equal to it. -/

variable {α : Type} [DecidableEq α]

/-- First occurrence of every element, in order of first appearance. -/
def firstOccs : List α → List α
  | [] => []
  | a :: l => a :: (firstOccs l).filter (· ≠ a)

/-! ## Master Store, JSON view: `merge_master_json` (batch_scrape.py 87–111)

A PlaceRecord is a Python dict; the merge reads only its `"place_url"`
entry and otherwise moves the record around whole.  `Item.place_url`
models `item.get("place_url")` (`none` covers both an absent key and an
explicit `None` value, which `.get` does not distinguish); `payload`
stands for the rest of the record (name, location, reviews) and makes
records distinguishable. -/

structure Item where
  place_url : Option String
  payload : Nat
deriving DecidableEq

/-- Model of `url = item.get("place_url")` filtered by Python truthiness
(`if url:`):
the key is used only when present, non-`None` and non-empty. -/
def urlKey (item : Item) : Option String :=
  match item.place_url with
  | none => none
  | some u => if u = "" then none else some u

/-- The `by_url` Python dict, modelled by its lookup function. -/
def Dict : Type := String → Option Item

def Dict.empty : Dict := fun _ => none

/-- Model of `by_url[u] = v`. -/
def Dict.insert (d : Dict) (u : String) (v : Item) : Dict :=
  fun u' => if u' = u then some v else d u'

/-- First loop of `merge_master_json`:
`for item in existing: url = item.get("place_url"); if url: by_url[url] = item`. -/
def insertAll : List Item → Dict → Dict
  | [], d => d
  | item :: rest, d =>
    insertAll rest
      (match urlKey item with
       | some u => d.insert u item
       | none => d)

/-- Second loop of `merge_master_json`:
`for item in new_items: if url and url not in by_url: by_url[url] = item`. -/
def insertNew : List Item → Dict → Dict
  | [], d => d
  | item :: rest, d =>
    insertNew rest
      (match urlKey item with
       | some u => if (d u).isSome then d else d.insert u item
       | none => d)

def buildByUrl (existing new_items : List Item) : Dict :=
  insertNew new_items (insertAll existing Dict.empty)

/-- Output loop of `merge_master_json`:
`for item in existing + new_items: if url and url in by_url and url not in
seen: out.append(by_url[url]); seen.add(url)`. -/
def emitLoop (b : Dict) : List String → List Item → List Item
  | _, [] => []
  | seen, item :: rest =>
    match urlKey item with
    | none => emitLoop b seen rest
    | some u =>
      match b u with
      | none => emitLoop b seen rest
      | some r => if u ∈ seen then emitLoop b seen rest
                  else r :: emitLoop b (u :: seen) rest

/-- Model of `merge_master_json(existing, new_items)` (batch_scrape.py,
87–111). -/
def merge_master_json (existing new_items : List Item) : List Item :=
  emitLoop (buildByUrl existing new_items) [] (existing ++ new_items)

/-! ### The dict after both loops, as a pair of list searches -/

/-- Last record of `E` whose truthy `place_url` is `u` (the first loop
overwrites, so the last write wins inside `existing`). -/
def findLast (E : List Item) (u : String) : Option Item :=
  match E with
  | [] => none
  | e :: rest =>
    match findLast rest u with
    | some r => some r
    | none => if urlKey e = some u then some e else none

/-- First record of `N` whose truthy `place_url` is `u` (the second loop
inserts only absent keys, so the first write wins inside `new_items`). -/
def findFirst (N : List Item) (u : String) : Option Item :=
  match N with
  | [] => none
  | e :: rest => if urlKey e = some u then some e else findFirst rest u

/-! ## Chunk Runner: `scrape_chunk` (batch_scrape.py 129–199)

The PlaceScraper is external; one invocation either returns a
`PlaceReviews` value or raises (caught by the runner's `except Exception`
branch).  An `Oracle` fixes the outcome of every possible invocation, as a
function of the global index of the attempt and the link passed. -/

/-- The `Review` dataclass of google_maps_scraping.py.  `rating` is
`Optional[float]` in the source; it is never computed with here, so it is
carried opaquely as an exact rational. -/
structure Review where
  user_name : String
  rating : Option Rat
  timestamp : String
  text_review : String
deriving DecidableEq

/-- The `PlaceReviews` dataclass of google_maps_scraping.py. -/
structure PlaceReviews where
  place_url : String
  place_name : String
  place_location : String
  reviews : List Review
deriving DecidableEq

/-- The dict appended to `chunk_results` for one successful scrape. -/
structure ChunkResult where
  place_url : String
  place_name : String
  place_location : String
  reviews : List Review
deriving DecidableEq

/-- The flattened dict appended to `chunk_rows`, one per review. -/
structure RowItem where
  place_url : String
  place_name : String
  place_location : String
  user_name : String
  rating : Option Rat
  timestamp : String
  text_review : String
deriving DecidableEq

/-- The `chunk_results.append({...})` record built from a result. -/
def mkChunkResult (r : PlaceReviews) : ChunkResult :=
  { place_url := r.place_url
    place_name := r.place_name
    place_location := r.place_location
    reviews := r.reviews.map (fun v =>
      { user_name := v.user_name
        rating := v.rating
        timestamp := v.timestamp
        text_review := v.text_review }) }

/-- The `for r in result.reviews: chunk_rows.append({...})` records. -/
def mkRows (r : PlaceReviews) : List RowItem :=
  r.reviews.map (fun v =>
    { place_url := r.place_url
      place_name := r.place_name
      place_location := r.place_location
      user_name := v.user_name
      rating := v.rating
      timestamp := v.timestamp
      text_review := v.text_review })

/-- Outcome of every possible `scrape_google_maps_reviews` invocation:
`some` result, or `none` for a raised exception. -/
def Oracle : Type := Nat → String → Option PlaceReviews

/-- Observable output of one chunk: the two buffers returned, plus the
trace of `save_state` calls made and of scrape attempts `(global index,
link)`, each in execution order. -/
structure ChunkOut where
  results : List ChunkResult
  rows : List RowItem
  saves : List Nat
  attempts : List (Nat × String)
deriving DecidableEq

/-- The `for i, link in enumerate(target_links, start=1)` loop of
`scrape_chunk`, with `gi` the global index of the next link: on success
append the result record and its rows, on a raised exception append
nothing; in both cases `save_state(global_i + 1)` runs. -/
def chunkLoop (o : Oracle) : Nat → List String → ChunkOut
  | _, [] => ⟨[], [], [], []⟩
  | gi, link :: rest =>
    let t := chunkLoop o (gi + 1) rest
    match o gi link with
    | some result =>
      ⟨mkChunkResult result :: t.results, mkRows result ++ t.rows,
       (gi + 1) :: t.saves, (gi, link) :: t.attempts⟩
    | none =>
      ⟨t.results, t.rows, (gi + 1) :: t.saves, (gi, link) :: t.attempts⟩

/-- Model of `scrape_chunk(links, start_index, chunk_size, ...)`: computes
`end_index = min(start_index + chunk_size, len(links))`, slices
`links[start_index:end_index]`, runs the loop over the slice, and returns
the buffers (with trace) together with `end_index`. -/
def scrape_chunk (o : Oracle) (links : List String)
    (start_index chunk_size : Nat) : ChunkOut × Nat :=
  let end_index := min (start_index + chunk_size) links.length
  let target_links := (links.drop start_index).take (end_index - start_index)
  (chunkLoop o start_index target_links, end_index)

/-- An oracle on which every scrape raises (used as a concrete witness). -/
def oracleNone : Oracle := fun _ _ => none

/-- An oracle failing exactly at global index 0 (concrete witness). -/
def oracleFail0 : Oracle := fun gi _ =>
  if gi = 0 then none else some ⟨"u", "n", "l", []⟩

/-! ## PlaceScraper call interface (C3)

`scrape_chunk` invokes `scrape_google_maps_reviews` with keyword
arguments (batch_scrape.py 154–160); the callee's signature is declared
at google_maps_scraping.py 360–365 and has no `**kwargs`.  A Python
keyword call is well-formed only if every keyword passed names a declared
parameter; an unexpected keyword raises `TypeError` at the call. -/

/-- The keywords `scrape_chunk` passes (batch_scrape.py 154–160). -/
def scrapeCallKeywords : List String :=
  ["place_url", "max_reviews", "headless", "max_scrolls", "profile_dir"]

/-- The parameters `scrape_google_maps_reviews` declares
(google_maps_scraping.py 360–365); all but `place_url` have defaults. -/
def scraperParams : List String :=
  ["place_url", "max_reviews", "headless", "max_scrolls"]

/-- No unexpected keyword argument in the chunk runner's scraper call. -/
def callKeywordsAccepted : Prop :=
  ∀ kw ∈ scrapeCallKeywords, kw ∈ scraperParams

/-! ## Master Store, tabular view: `merge_master_csv` (batch_scrape.py 114–126)

Rows are the Python dicts of `chunk_rows`, modelled as association lists
from column name to cell; a missing key is a NaN cell (pandas treats NaN
cells as equal to each other when dropping duplicate rows, so a key tuple
is a list of `Option` cells).  Key-column cells are strings in the
source. -/

abbrev Row : Type := List (String × String)

/-- A pandas DataFrame: its column index and its rows. -/
structure DFrame where
  cols : List String
  rows : List Row
deriving DecidableEq

/-- Model of `df.empty`: no rows or no columns. -/
def dfEmpty (df : DFrame) : Bool := df.rows.isEmpty || df.cols.isEmpty

/-- Model of `pd.DataFrame(new_rows)`: the column index is the union of the row
dicts' keys in order of first appearance. -/
def mkDataFrame (rows : List Row) : DFrame :=
  { cols := firstOccs (rows.flatMap (fun r => r.map (·.1))), rows := rows }

/-- Model of `pd.concat([a, b], ignore_index=True)`: rows appended, columns the
union keeping the first frame's order first. -/
def concatDF (a b : DFrame) : DFrame :=
  { cols := firstOccs (a.cols ++ b.cols), rows := a.rows ++ b.rows }

/-- The deduplication key columns of `merge_master_csv` (line 122). -/
def keyColumns : List String :=
  ["place_url", "user_name", "timestamp", "text_review"]

/-- The key tuple of a row restricted to `key_cols` (`none` = NaN). -/
def rowKeyOf (key_cols : List String) (row : Row) : List (Option String) :=
  key_cols.map (fun c => List.lookup c row)

/-- Model of `combined.drop_duplicates(subset=key_cols, keep="first")`. -/
def dropDuplicates (key_cols : List String) :
    List (List (Option String)) → List Row → List Row
  | _, [] => []
  | seen, r :: rest =>
    if rowKeyOf key_cols r ∈ seen then dropDuplicates key_cols seen rest
    else r :: dropDuplicates key_cols (rowKeyOf key_cols r :: seen) rest

/-- The local `combined` of `merge_master_csv` (line 119). -/
def combinedOf (existing_df : DFrame) (new_rows : List Row) : DFrame :=
  concatDF existing_df (mkDataFrame new_rows)

/-- The local `key_cols` of `merge_master_csv` (line 122): the key
columns actually present in the concatenated frame. -/
def keyColsOf (existing_df : DFrame) (new_rows : List Row) : List String :=
  keyColumns.filter (fun c => c ∈ (combinedOf existing_df new_rows).cols)

/-- Model of `merge_master_csv(existing_df, new_rows)` (batch_scrape.py
114–126). -/
def merge_master_csv (existing_df : DFrame) (new_rows : List Row) : DFrame :=
  if dfEmpty existing_df then mkDataFrame new_rows
  else if (keyColsOf existing_df new_rows).isEmpty then
    combinedOf existing_df new_rows
  else
    { cols := (combinedOf existing_df new_rows).cols
      rows := dropDuplicates (keyColsOf existing_df new_rows) []
        (combinedOf existing_df new_rows).rows }

/-- A complete review row, used as concrete input. -/
def rDup : Row :=
  [("place_url", "u"), ("user_name", "n"), ("timestamp", "t"),
   ("text_review", "x")]

/-- First row of `rows` whose key tuple is `t` — the row that
`keep="first"` retains for that tuple (the CSV analogue of `findFirst`;
existing rows come first in the concatenation, so they win). -/
def firstRowWith (key_cols : List String) :
    List Row → List (Option String) → Option Row
  | [], _ => none
  | r :: rest, t =>
    if rowKeyOf key_cols r = t then some r
    else firstRowWith key_cols rest t

/-- A complete review row carrying a non-key column, concrete input. -/
def rowA : Row :=
  [("place_url", "u"), ("user_name", "n"), ("timestamp", "t"),
   ("text_review", "x"), ("place_name", "A")]

/-- Same key tuple as `rowA` but a different row (non-key column
differs), concrete input. -/
def rowB : Row :=
  [("place_url", "u"), ("user_name", "n"), ("timestamp", "t"),
   ("text_review", "x"), ("place_name", "B")]

/-! ## Input artifacts: `load_state` (38–50) and `load_links` (20–35)

Both functions read a JSON artifact from disk.  An artifact is absent,
unreadable (I/O error), unparseable (not JSON), or parsed JSON content;
JSON values are modelled by `J`.  `load_state` catches every exception
and is total; `load_links` lets errors propagate and returns `Except`. -/

/-- JSON values as `json.load` produces them.  Python `bool` is a
subclass of `int`, so `isinstance(x, int)` accepts booleans too; floats
are carried opaquely (never computed with). -/
inductive J where
  | jnull
  | jbool (b : Bool)
  | jint (n : Int)
  | jnum (lit : String)
  | jstr (s : String)
  | jarr (l : List J)
  | jobj (entries : List (String × J))

/-- A persisted artifact as the loaders can encounter it. -/
inductive Artifact where
  | missing
  | unreadable
  | notJson
  | content (j : J)

/-- Model of `isinstance(x, int)` — Python booleans are ints. -/
def isPyInt : J → Bool
  | .jint _ => true
  | .jbool _ => true
  | _ => false

/-- The dict `load_state` returns (a JSON object's entries). -/
abbrev StateDict := List (String × J)

/-- The zero state, `{"next_index": 0}`. -/
def zeroState : StateDict := [("next_index", J.jint 0)]

/-- Model of `load_state()` (batch_scrape.py 38–50): a missing file, an I/O or
parse error, a non-dict value, a missing `next_index` key, or an
ill-typed `next_index` all yield the zero state; otherwise the parsed
dict is returned whole — whatever integer it stores. -/
def load_state : Artifact → StateDict
  | .missing => zeroState
  | .unreadable => zeroState
  | .notJson => zeroState
  | .content j =>
    match j with
    | .jobj entries =>
      match entries.lookup "next_index" with
      | some v => if isPyInt v then entries else zeroState
      | none => zeroState
    | _ => zeroState

/-- The string-collecting loop of `load_links`:
`if isinstance(x, str) and x not in seen: out.append(x); seen.add(x)`. -/
def strLoop (seen : List String) : List J → List String
  | [] => []
  | x :: rest =>
    match x with
    | .jstr s =>
      if s ∈ seen then strLoop seen rest
      else s :: strLoop (s :: seen) rest
    | _ => strLoop seen rest

/-- The string entries of a JSON array element (`isinstance(x, str)`). -/
def asStr : J → Option String
  | .jstr s => some s
  | _ => none

/-- Model of `load_links(path)` (batch_scrape.py 20–35): absent file raises
`FileNotFoundError`; an unreadable or unparseable artifact propagates its
I/O/decode error; non-array JSON raises `ValueError`; otherwise the
string entries are returned deduplicated, first occurrences first. -/
def load_links : Artifact → Except String (List String)
  | .missing => .error "FileNotFoundError"
  | .unreadable => .error "OSError"
  | .notJson => .error "JSONDecodeError"
  | .content j =>
    match j with
    | .jarr l => .ok (strLoop [] l)
    | _ => .error "ValueError"

/-! ## Theorems -/

theorem mem_firstOccs {a : α} : ∀ {l : List α}, a ∈ firstOccs l ↔ a ∈ l
  | [] => Iff.rfl
  | b :: l => by
    simp only [firstOccs, List.mem_cons, List.mem_filter, mem_firstOccs (l := l),
      decide_eq_true_eq]
    constructor
    · rintro (rfl | ⟨h, _⟩)
      · exact Or.inl rfl
      · exact Or.inr h
    · rintro (rfl | h)
      · exact Or.inl rfl
      · by_cases hab : a = b
        · exact Or.inl hab
        · exact Or.inr ⟨h, hab⟩

theorem nodup_firstOccs : ∀ l : List α, (firstOccs l).Nodup
  | [] => List.nodup_nil
  | a :: l => by
    refine List.Nodup.cons ?_ ((nodup_firstOccs l).filter _)
    intro hmem
    rcases List.mem_filter.mp hmem with ⟨-, hne⟩
    exact (decide_eq_true_eq.mp hne) rfl

theorem filter_firstOccs (p : α → Bool) :
    ∀ l : List α, firstOccs (l.filter p) = (firstOccs l).filter p
  | [] => rfl
  | a :: l => by
    cases hpa : p a with
    | true =>
      rw [List.filter_cons_of_pos hpa]
      show a :: (firstOccs (l.filter p)).filter (· ≠ a)
          = (a :: (firstOccs l).filter (· ≠ a)).filter p
      rw [List.filter_cons_of_pos hpa, filter_firstOccs p l,
        List.filter_filter, List.filter_filter]
      refine congrArg (a :: ·) (List.filter_congr ?_)
      intro b _
      exact Bool.and_comm _ _
    | false =>
      rw [List.filter_cons_of_neg (by simp [hpa])]
      show firstOccs (l.filter p) = (a :: (firstOccs l).filter (· ≠ a)).filter p
      rw [List.filter_cons_of_neg (by simp [hpa]), filter_firstOccs p l,
        List.filter_filter]
      refine List.filter_congr ?_
      intro b _
      by_cases hb : b = a
      · subst hb
        simp [hpa]
      · simp [hb]

theorem firstOccs_snoc (x : α) : ∀ l : List α,
    firstOccs (l ++ [x]) = if x ∈ l then firstOccs l else firstOccs l ++ [x]
  | [] => by simp [firstOccs]
  | y :: l => by
    simp only [List.cons_append, firstOccs, List.append_eq]
    rw [firstOccs_snoc x l]
    by_cases hxl : x ∈ l
    · rw [if_pos hxl, if_pos (List.mem_cons_of_mem _ hxl)]
    · rw [if_neg hxl]
      by_cases hxy : x = y
      · subst hxy
        rw [if_pos (List.mem_cons_self x l), List.filter_append]
        have hx : ([x].filter (fun b => decide (b ≠ x)) : List α) = [] := by simp
        rw [hx, List.append_nil]
      · rw [if_neg (by simp [List.mem_cons, hxy, hxl]), List.filter_append]
        have hx : ([x].filter (fun b => decide (b ≠ y)) : List α) = [x] := by
          simp [hxy]
        rw [hx]

theorem firstOccs_append_subset : ∀ (B A : List α), (∀ b ∈ B, b ∈ A) →
    firstOccs (A ++ B) = firstOccs A
  | [], A, _ => by simp
  | b :: B, A, h => by
    have hb : b ∈ A := h b (List.mem_cons_self b B)
    have : A ++ b :: B = (A ++ [b]) ++ B := by simp
    rw [this, firstOccs_append_subset B (A ++ [b])
      (fun x hx => List.mem_append_left _ (h x (List.mem_cons_of_mem _ hx))),
      firstOccs_snoc, if_pos hb]

theorem filterMap_congr_on {β : Type} {f g : α → Option β} :
    ∀ {l : List α}, (∀ a ∈ l, f a = g a) → l.filterMap f = l.filterMap g
  | [], _ => rfl
  | a :: l, h => by
    simp only [List.filterMap_cons, h a (List.mem_cons_self a l)]
    cases g a <;>
      simp [filterMap_congr_on (fun x hx => h x (List.mem_cons_of_mem _ hx))]

theorem filterMap_id_on {g : α → Option α} :
    ∀ {l : List α}, (∀ a ∈ l, g a = some a) → l.filterMap g = l
  | [], _ => rfl
  | a :: l, h => by
    simp only [List.filterMap_cons, h a (List.mem_cons_self a l)]
    rw [filterMap_id_on (fun x hx => h x (List.mem_cons_of_mem _ hx))]

theorem filterMap_filter_of_none {β : Type} {g : α → Option β} {u : α}
    (hg : g u = none) :
    ∀ l : List α, (l.filter (· ≠ u)).filterMap g = l.filterMap g
  | [] => rfl
  | a :: l => by
    by_cases ha : a = u
    · subst ha
      rw [List.filter_cons_of_neg (by simp), List.filterMap_cons, hg,
        filterMap_filter_of_none hg l]
    · rw [List.filter_cons_of_pos (by simp [ha]), List.filterMap_cons,
        List.filterMap_cons, filterMap_filter_of_none hg l]

theorem findLast_mem {E : List Item} {u : String} {r : Item}
    (h : findLast E u = some r) : r ∈ E ∧ urlKey r = some u := by
  induction E with
  | nil => exact absurd h (by simp [findLast])
  | cons e rest ih =>
    rw [findLast] at h
    cases hrest : findLast rest u with
    | some r2 =>
      rw [hrest] at h
      obtain rfl : r2 = r := by injection h
      obtain ⟨h1, h2⟩ := ih hrest
      exact ⟨List.mem_cons_of_mem _ h1, h2⟩
    | none =>
      rw [hrest] at h
      by_cases hk : urlKey e = some u
      · rw [if_pos hk] at h
        obtain rfl : e = r := by injection h
        exact ⟨List.mem_cons_self _ _, hk⟩
      · rw [if_neg hk] at h
        exact absurd h (by simp)

theorem findLast_isSome {E : List Item} {u : String}
    (h : ∃ e ∈ E, urlKey e = some u) : (findLast E u).isSome := by
  induction E with
  | nil => simp at h
  | cons e rest ih =>
    rw [findLast]
    cases hrest : findLast rest u with
    | some r2 => simp
    | none =>
      obtain ⟨x, hx, hkx⟩ := h
      rcases List.mem_cons.mp hx with rfl | hx2
      · simp [hkx]
      · have := ih ⟨x, hx2, hkx⟩
        rw [hrest] at this
        simp at this

theorem findFirst_mem {N : List Item} {u : String} {r : Item}
    (h : findFirst N u = some r) : r ∈ N ∧ urlKey r = some u := by
  induction N with
  | nil => exact absurd h (by simp [findFirst])
  | cons e rest ih =>
    rw [findFirst] at h
    by_cases hk : urlKey e = some u
    · rw [if_pos hk] at h
      obtain rfl : e = r := by injection h
      exact ⟨List.mem_cons_self _ _, hk⟩
    · rw [if_neg hk] at h
      obtain ⟨h1, h2⟩ := ih h
      exact ⟨List.mem_cons_of_mem _ h1, h2⟩

theorem findFirst_isSome {N : List Item} {u : String}
    (h : ∃ n ∈ N, urlKey n = some u) : (findFirst N u).isSome := by
  induction N with
  | nil => simp at h
  | cons e rest ih =>
    rw [findFirst]
    by_cases hk : urlKey e = some u
    · simp [hk]
    · rw [if_neg hk]
      obtain ⟨x, hx, hkx⟩ := h
      rcases List.mem_cons.mp hx with rfl | hx2
      · exact absurd hkx hk
      · exact ih ⟨x, hx2, hkx⟩

theorem insertAll_eq (u : String) :
    ∀ (E : List Item) (d : Dict), insertAll E d u = (findLast E u).or (d u)
  | [], d => by simp [insertAll, findLast]
  | e :: rest, d => by
    cases hk : urlKey e with
    | none =>
      simp only [insertAll, hk]
      rw [insertAll_eq u rest d, findLast]
      cases hrest : findLast rest u with
      | some r2 => simp
      | none => simp [hk]
    | some v =>
      simp only [insertAll, hk]
      rw [insertAll_eq u rest (d.insert v e), findLast]
      cases hrest : findLast rest u with
      | some r2 => simp
      | none =>
        by_cases hvu : v = u
        · have hke : urlKey e = some u := by rw [hk, hvu]
          have hins : Dict.insert d v e u = some e := by
            show (if u = v then some e else d u) = some e
            rw [if_pos hvu.symm]
          rw [hins, if_pos hke]
          simp
        · have hke : ¬ urlKey e = some u := by simp [hk, hvu]
          have hins : Dict.insert d v e u = d u := by
            show (if u = v then some e else d u) = d u
            exact if_neg (fun h => hvu h.symm)
          rw [hins, if_neg hke]

theorem insertNew_eq (u : String) :
    ∀ (N : List Item) (d : Dict), insertNew N d u = (d u).or (findFirst N u)
  | [], d => by simp [insertNew, findFirst, Option.or_none]
  | e :: rest, d => by
    cases hk : urlKey e with
    | none =>
      simp only [insertNew, hk]
      rw [insertNew_eq u rest d, findFirst]
      simp [hk]
    | some v =>
      simp only [insertNew, hk]
      rw [findFirst]
      by_cases hds : (d v).isSome
      · rw [if_pos hds, insertNew_eq u rest d]
        by_cases hvu : v = u
        · rw [if_pos (show urlKey e = some u by rw [hk, hvu])]
          obtain ⟨r, hr⟩ := Option.isSome_iff_exists.mp (hvu ▸ hds)
          rw [hr]
          simp
        · rw [if_neg (show ¬ urlKey e = some u by simp [hk, hvu])]
      · rw [if_neg hds, insertNew_eq u rest (d.insert v e)]
        by_cases hvu : v = u
        · rw [if_pos (show urlKey e = some u by rw [hk, hvu])]
          have hdu : d u = none := by
            rw [← hvu]
            exact Option.not_isSome_iff_eq_none.mp hds
          have hins : Dict.insert d v e u = some e := by
            show (if u = v then some e else d u) = some e
            rw [if_pos hvu.symm]
          rw [hins, hdu]
          simp
        · rw [if_neg (show ¬ urlKey e = some u by simp [hk, hvu])]
          have hins : Dict.insert d v e u = d u := by
            show (if u = v then some e else d u) = d u
            exact if_neg (fun h => hvu h.symm)
          rw [hins]

theorem buildByUrl_eq (E N : List Item) (u : String) :
    buildByUrl E N u = (findLast E u).or (findFirst N u) := by
  show insertNew N (insertAll E Dict.empty) u = _
  rw [insertNew_eq, insertAll_eq]
  cases findLast E u <;> simp [Dict.empty]

theorem buildByUrl_key {E N : List Item} {u : String} {r : Item}
    (h : buildByUrl E N u = some r) : urlKey r = some u := by
  rw [buildByUrl_eq] at h
  cases hE : findLast E u with
  | some r2 =>
    rw [hE] at h
    obtain rfl : r2 = r := by injection h
    exact (findLast_mem hE).2
  | none =>
    rw [hE] at h
    simp only [Option.none_or] at h
    exact (findFirst_mem h).2

theorem buildByUrl_mem {E N : List Item} {u : String} {r : Item}
    (h : buildByUrl E N u = some r) : r ∈ E ∨ r ∈ N := by
  rw [buildByUrl_eq] at h
  cases hE : findLast E u with
  | some r2 =>
    rw [hE] at h
    obtain rfl : r2 = r := by injection h
    exact Or.inl (findLast_mem hE).1
  | none =>
    rw [hE] at h
    simp only [Option.none_or] at h
    exact Or.inr (findFirst_mem h).1

theorem buildByUrl_isSome {E N : List Item} {u : String}
    (h : u ∈ (E ++ N).filterMap urlKey) : (buildByUrl E N u).isSome := by
  rw [buildByUrl_eq]
  obtain ⟨item, hmem, hkey⟩ := List.mem_filterMap.mp h
  rcases List.mem_append.mp hmem with hmem | hmem
  · have := findLast_isSome ⟨item, hmem, hkey⟩
    cases hE : findLast E u with
    | some r => simp
    | none => rw [hE] at this; simp at this
  · have := findFirst_isSome ⟨item, hmem, hkey⟩
    cases hN : findFirst N u with
    | some r => cases findLast E u <;> simp [hN]
    | none => rw [hN] at this; simp at this

/-- The output loop, for any dict and any starting `seen` set: it emits the
dict's record for the first not-yet-seen occurrence of each truthy key, in
encounter order. -/
theorem emitLoop_eq (b : Dict) :
    ∀ (l : List Item) (seen : List String),
      emitLoop b seen l
        = (firstOccs ((l.filterMap urlKey).filter
            (fun v => decide (v ∉ seen)))).filterMap (fun v => b v)
  | [], seen => rfl
  | item :: rest, seen => by
    cases hk : urlKey item with
    | none =>
      simp only [emitLoop, hk, List.filterMap_cons]
      exact emitLoop_eq b rest seen
    | some u =>
      simp only [emitLoop, hk, List.filterMap_cons]
      by_cases hseen : u ∈ seen
      · rw [List.filter_cons_of_neg (by simp [hseen])]
        cases hbu : b u with
        | none => exact emitLoop_eq b rest seen
        | some r =>
          show (if u ∈ seen then emitLoop b seen rest
                else r :: emitLoop b (u :: seen) rest) = _
          rw [if_pos hseen]
          exact emitLoop_eq b rest seen
      · rw [List.filter_cons_of_pos (by simp [hseen])]
        simp only [firstOccs, List.filterMap_cons]
        cases hbu : b u with
        | none =>
          show emitLoop b seen rest
              = ((firstOccs ((rest.filterMap urlKey).filter
                  (fun v => decide (v ∉ seen)))).filter
                    (· ≠ u)).filterMap (fun v => b v)
          rw [filterMap_filter_of_none hbu, emitLoop_eq b rest seen]
        | some r =>
          show (if u ∈ seen then emitLoop b seen rest
                else r :: emitLoop b (u :: seen) rest)
              = r :: ((firstOccs ((rest.filterMap urlKey).filter
                  (fun v => decide (v ∉ seen)))).filter
                    (· ≠ u)).filterMap (fun v => b v)
          rw [if_neg hseen, emitLoop_eq b rest (u :: seen)]
          refine congrArg (r :: ·) ?_
          refine congrArg (List.filterMap fun v => b v) ?_
          rw [← filter_firstOccs, List.filter_filter]
          refine congrArg firstOccs (List.filter_congr ?_)
          intro v _
          by_cases h1 : v = u <;> by_cases h2 : v ∈ seen <;>
            simp [h1, h2, List.mem_cons]

/-- The function `merge_master_json` emits, for the first occurrence of each truthy
`place_url` in `existing ++ new_items`, the record the two dict-building
loops left at that key. -/
theorem merge_master_json_eq (E N : List Item) :
    merge_master_json E N
      = (firstOccs ((E ++ N).filterMap urlKey)).filterMap
          (fun u => buildByUrl E N u) := by
  show emitLoop (buildByUrl E N) [] (E ++ N) = _
  rw [emitLoop_eq]
  have h : ((E ++ N).filterMap urlKey).filter
      (fun v => decide (v ∉ ([] : List String)))
      = (E ++ N).filterMap urlKey :=
    List.filter_eq_self.mpr (fun v _ => by simp)
  rw [h]

/-- The truthy keys of the merged output are exactly the first occurrences
of the truthy keys of `existing ++ new_items`. -/
theorem merge_master_json_keys (E N : List Item) :
    (merge_master_json E N).filterMap urlKey
      = firstOccs ((E ++ N).filterMap urlKey) := by
  rw [merge_master_json_eq, List.filterMap_filterMap]
  refine filterMap_id_on ?_
  intro u hu
  have hK : u ∈ (E ++ N).filterMap urlKey := mem_firstOccs.mp hu
  obtain ⟨r, hr⟩ := Option.isSome_iff_exists.mp (buildByUrl_isSome hK)
  show (buildByUrl E N u).bind urlKey = some u
  rw [hr]
  exact buildByUrl_key hr

theorem firstOccs_of_nodup : ∀ {l : List α}, l.Nodup → firstOccs l = l
  | [], _ => rfl
  | a :: l, h => by
    obtain ⟨ha, hl⟩ := List.nodup_cons.mp h
    show a :: (firstOccs l).filter (· ≠ a) = a :: l
    rw [firstOccs_of_nodup hl]
    refine congrArg (a :: ·) (List.filter_eq_self.mpr ?_)
    intro b hb
    simp only [decide_eq_true_eq]
    intro hba
    exact ha (hba ▸ hb)

/-- Every record the merge emits carries a truthy `place_url`. -/
theorem merge_mem_key {E N : List Item} {r : Item}
    (hr : r ∈ merge_master_json E N) : ∃ u, urlKey r = some u := by
  rw [merge_master_json_eq] at hr
  obtain ⟨v, _, hbv⟩ := List.mem_filterMap.mp hr
  exact ⟨v, buildByUrl_key hbv⟩

/-- With duplicate-free keys, `findLast` recovers each record from its key. -/
theorem findLast_eq_of_nodup :
    ∀ {M : List Item}, (M.filterMap urlKey).Nodup →
      ∀ {r : Item} {u : String}, r ∈ M → urlKey r = some u →
        findLast M u = some r
  | [], _, _, _, hr, _ => absurd hr (List.not_mem_nil _)
  | m :: M, hnd, r, u, hr, hkr => by
    cases hk : urlKey m with
    | none =>
      simp only [List.filterMap_cons, hk] at hnd
      rcases List.mem_cons.mp hr with rfl | hrM
      · exact absurd (hkr.symm.trans hk) (by simp)
      · simp only [findLast, findLast_eq_of_nodup hnd hrM hkr]
    | some v =>
      simp only [List.filterMap_cons, hk] at hnd
      obtain ⟨hv, hnd2⟩ := List.nodup_cons.mp hnd
      rcases List.mem_cons.mp hr with rfl | hrM
      · have hvu : v = u := by rw [hk] at hkr; injection hkr
        subst hvu
        cases hfM : findLast M v with
        | some r2 =>
          obtain ⟨hr2, hk2⟩ := findLast_mem hfM
          exact absurd (List.mem_filterMap.mpr ⟨r2, hr2, hk2⟩) hv
        | none => simp only [findLast, hfM, if_pos hkr]
      · simp only [findLast, findLast_eq_of_nodup hnd2 hrM hkr]

/-- Mapping each key of a duplicate-free, all-truthy record list back
through `findLast` reproduces the list. -/
theorem filterMap_keys_findLast :
    ∀ {M : List Item}, (M.filterMap urlKey).Nodup →
      (∀ r ∈ M, (urlKey r).isSome) →
      (M.filterMap urlKey).filterMap (fun u => findLast M u) = M
  | [], _, _ => rfl
  | m :: M, hnd, htruthy => by
    obtain ⟨v, hkm⟩ := Option.isSome_iff_exists.mp
      (htruthy m (List.mem_cons_self _ _))
    have h1 : findLast (m :: M) v = some m :=
      findLast_eq_of_nodup hnd (List.mem_cons_self _ _) hkm
    simp only [List.filterMap_cons, hkm, h1]
    refine congrArg (m :: ·) ?_
    simp only [List.filterMap_cons, hkm] at hnd
    obtain ⟨hv, hnd2⟩ := List.nodup_cons.mp hnd
    have hcongr : ∀ u ∈ M.filterMap urlKey,
        findLast (m :: M) u = findLast M u := by
      intro u hu
      obtain ⟨r2, hr2, hk2⟩ := List.mem_filterMap.mp hu
      have hsome := findLast_isSome ⟨r2, hr2, hk2⟩
      cases hfm : findLast M u with
      | some r3 => simp only [findLast, hfm]
      | none => rw [hfm] at hsome; exact absurd hsome (by simp)
    rw [filterMap_congr_on hcongr]
    exact filterMap_keys_findLast hnd2
      (fun r hrM => htruthy r (List.mem_cons_of_mem _ hrM))

/-- C4: as claimed, if a `place_url` key appears (truthily) in a record of the
existing store and also in a record of the new chunk, then the record the
merged output carries for that key comes from the existing store, never
from the new chunk — existing entries always win ties. -/
theorem merge_json_existing_wins (E N : List Item) (u : String)
    (hE : ∃ e ∈ E, urlKey e = some u) (hN : ∃ n ∈ N, urlKey n = some u) :
    (∃ r ∈ merge_master_json E N, urlKey r = some u ∧ r ∈ E)
    ∧ ∀ r ∈ merge_master_json E N, urlKey r = some u → r ∈ E := by
  have hfl : (findLast E u).isSome := findLast_isSome hE
  obtain ⟨e0, he0⟩ := Option.isSome_iff_exists.mp hfl
  have hb : buildByUrl E N u = some e0 := by
    rw [buildByUrl_eq, he0]
    rfl
  constructor
  · obtain ⟨e, heE, hke⟩ := hE
    have hK : u ∈ (E ++ N).filterMap urlKey :=
      List.mem_filterMap.mpr ⟨e, List.mem_append_left _ heE, hke⟩
    have hu : u ∈ firstOccs ((E ++ N).filterMap urlKey) := mem_firstOccs.mpr hK
    refine ⟨e0, ?_, buildByUrl_key hb, (findLast_mem he0).1⟩
    rw [merge_master_json_eq]
    exact List.mem_filterMap.mpr ⟨u, hu, hb⟩
  · intro r hr hkr
    rw [merge_master_json_eq] at hr
    obtain ⟨v, _, hbv⟩ := List.mem_filterMap.mp hr
    have hkv : urlKey r = some v := buildByUrl_key hbv
    have hvu : v = u := by
      rw [hkv] at hkr
      injection hkr
    subst hvu
    obtain rfl : r = e0 := Option.some.inj (hbv.symm.trans hb)
    exact (findLast_mem he0).1

/-- Witness for C4 at a concrete tie: key `"a"` in both stores. -/
theorem merge_json_existing_wins_witness :
    (∃ r ∈ merge_master_json [⟨some "a", 1⟩] [⟨some "a", 2⟩],
        urlKey r = some "a" ∧ r ∈ [(⟨some "a", 1⟩ : Item)])
    ∧ ∀ r ∈ merge_master_json [⟨some "a", 1⟩] [⟨some "a", 2⟩],
        urlKey r = some "a" → r ∈ [(⟨some "a", 1⟩ : Item)] :=
  merge_json_existing_wins [⟨some "a", 1⟩] [⟨some "a", 2⟩] "a"
    ⟨⟨some "a", 1⟩, by decide⟩ ⟨⟨some "a", 2⟩, by decide⟩

/-- C5: as claimed, each truthy `place_url` occurs in at most one record of the
merged output, and the output is, in order, the winning record of each
key at its first encounter while iterating `existing ++ new_items`. -/
theorem merge_json_nodup_first_encounter (E N : List Item) :
    ((merge_master_json E N).filterMap urlKey).Nodup
    ∧ (merge_master_json E N).filterMap urlKey
        = firstOccs ((E ++ N).filterMap urlKey)
    ∧ merge_master_json E N
        = (firstOccs ((E ++ N).filterMap urlKey)).filterMap
            (fun u => buildByUrl E N u) := by
  refine ⟨?_, merge_master_json_keys E N, merge_master_json_eq E N⟩
  rw [merge_master_json_keys E N]
  exact nodup_firstOccs _

/-- C6: as claimed, re-merging the same chunk into the store it produced is a
no-op — `mergeJSON(mergeJSON(∅, L), L) = mergeJSON(∅, L)`. -/
theorem merge_json_idempotent (L : List Item) :
    merge_master_json (merge_master_json [] L) L = merge_master_json [] L := by
  have hkeysM : (merge_master_json [] L).filterMap urlKey
      = firstOccs (L.filterMap urlKey) := by
    rw [merge_master_json_keys, List.nil_append]
  have hnd : ((merge_master_json [] L).filterMap urlKey).Nodup := by
    rw [hkeysM]
    exact nodup_firstOccs _
  have htruthy : ∀ r ∈ merge_master_json [] L, (urlKey r).isSome := by
    intro r hr
    obtain ⟨u, hu⟩ := merge_mem_key hr
    rw [hu]
    rfl
  have hsub : ∀ v ∈ L.filterMap urlKey,
      v ∈ (merge_master_json [] L).filterMap urlKey := by
    intro v hv
    rw [hkeysM]
    exact mem_firstOccs.mpr hv
  rw [merge_master_json_eq (merge_master_json [] L) L,
    List.filterMap_append, firstOccs_append_subset _ _ hsub,
    firstOccs_of_nodup hnd]
  have hcongr : ∀ u ∈ (merge_master_json [] L).filterMap urlKey,
      buildByUrl (merge_master_json [] L) L u
        = findLast (merge_master_json [] L) u := by
    intro u hu
    obtain ⟨r2, hr2, hk2⟩ := List.mem_filterMap.mp hu
    rw [buildByUrl_eq, findLast_eq_of_nodup hnd hr2 hk2]
    rfl
  rw [filterMap_congr_on hcongr]
  exact filterMap_keys_findLast hnd htruthy

/-- C10: as claimed, every record in the merged output has a present, non-empty
`place_url`; a record whose `place_url` is absent/`None` (modelled as
`none`) or the empty string never appears in the output, whichever input
it came from. -/
theorem merge_json_urls_truthy (E N : List Item) :
    (∀ r ∈ merge_master_json E N, ∃ u, r.place_url = some u ∧ u ≠ "")
    ∧ ∀ r : Item, urlKey r = none → r ∉ merge_master_json E N := by
  constructor
  · intro r hr
    obtain ⟨u, hu⟩ := merge_mem_key hr
    cases hp : r.place_url with
    | none =>
      simp only [urlKey, hp] at hu
      exact absurd hu (by simp)
    | some v =>
      simp only [urlKey, hp] at hu
      by_cases hv : v = ""
      · rw [if_pos hv] at hu
        exact absurd hu (by simp)
      · exact ⟨v, rfl, hv⟩
  · intro r hnone hr
    obtain ⟨u, hu⟩ := merge_mem_key hr
    exact absurd (hnone.symm.trans hu) (by simp)

/-- Witness for C10: the record kept for a concrete merge has a truthy
URL, and a URL-less record is dropped even when it was in the existing
store. -/
theorem merge_json_urls_truthy_witness :
    (∃ u, (⟨some "a", 1⟩ : Item).place_url = some u ∧ u ≠ "")
    ∧ (⟨none, 7⟩ : Item) ∉ merge_master_json [⟨none, 7⟩, ⟨some "a", 1⟩] [] :=
  ⟨(merge_json_urls_truthy [⟨none, 7⟩, ⟨some "a", 1⟩] []).1
      ⟨some "a", 1⟩ (by decide),
   (merge_json_urls_truthy [⟨none, 7⟩, ⟨some "a", 1⟩] []).2
      ⟨none, 7⟩ (by decide)⟩

/-- Full characterisation of the chunk loop: every link of the target is
attempted at consecutive global indices, the cursor save `gi + 1` happens
for every link whatever the outcome, and the buffers collect exactly the
successful attempts' contributions in order. -/
theorem chunkLoop_eq (o : Oracle) :
    ∀ (target : List String) (gi : Nat),
      chunkLoop o gi target
        = { results := ((List.range' gi target.length).zip target).filterMap
              (fun p => (o p.1 p.2).map mkChunkResult)
            rows := ((List.range' gi target.length).zip target).flatMap
              (fun p => ((o p.1 p.2).map mkRows).getD [])
            saves := List.range' (gi + 1) target.length
            attempts := (List.range' gi target.length).zip target }
  | [], gi => rfl
  | link :: rest, gi => by
    simp only [chunkLoop, chunkLoop_eq o rest (gi + 1), List.length_cons,
      List.range'_succ, List.zip_cons_cons, List.filterMap_cons,
      List.flatMap_cons]
    cases o gi link with
    | some result => simp
    | none => simp

/-- C1: as claimed, for `s ≤ m` and `k > 0`, the chunk runner computes
`end_index = min(s + k, m)`, attempts exactly the slice
`links[s:end_index]` in order at consecutive global indices, persists the
cursor once per link, and the last persisted value (when the slice is
non-empty, i.e. `s < m`) as well as the returned `end_index` equal
`min(s + k, m)`, for every oracle — success or failure of individual
scrapes does not matter. -/
theorem scrape_chunk_cursor (o : Oracle) (links : List String) (s k : Nat)
    (hs : s ≤ links.length) (hk : 0 < k) :
    (scrape_chunk o links s k).2 = min (s + k) links.length
    ∧ (scrape_chunk o links s k).1.attempts
        = (List.range' s (min (s + k) links.length - s)).zip
            ((links.take (min (s + k) links.length)).drop s)
    ∧ (scrape_chunk o links s k).1.saves
        = List.range' (s + 1) (min (s + k) links.length - s)
    ∧ (s < links.length →
        (scrape_chunk o links s k).1.saves.getLast?
          = some (min (s + k) links.length)) := by
  have hse : s ≤ min (s + k) links.length :=
    le_min (Nat.le_add_right _ _) hs
  have hem : min (s + k) links.length ≤ links.length := min_le_right _ _
  have hlen : ((links.drop s).take (min (s + k) links.length - s)).length
      = min (s + k) links.length - s := by
    rw [List.length_take, List.length_drop]
    omega
  have harith : s + (min (s + k) links.length - s)
      = min (s + k) links.length := by omega
  have hslice : (links.drop s).take (min (s + k) links.length - s)
      = (links.take (min (s + k) links.length)).drop s := by
    rw [List.take_drop, harith]
  have hout : (scrape_chunk o links s k).1
      = chunkLoop o s ((links.drop s).take (min (s + k) links.length - s)) :=
    rfl
  rw [hout, chunkLoop_eq, hlen]
  refine ⟨rfl, ?_, rfl, ?_⟩
  · rw [hslice]
  · intro hsm
    have hlt : s < min (s + k) links.length := lt_min (by omega) hsm
    obtain ⟨n, hn⟩ : ∃ n, min (s + k) links.length - s = n + 1 :=
      ⟨min (s + k) links.length - s - 1, by omega⟩
    show (List.range' (s + 1) (min (s + k) links.length - s)).getLast? = _
    rw [hn, List.range'_concat, List.getLast?_concat]
    simp only [Option.some.injEq]
    omega

/-- Witness for C1: three links, chunk of two, every scrape failing. -/
theorem scrape_chunk_cursor_witness :
    (scrape_chunk oracleNone ["a", "b", "c"] 0 2).2 = 2
    ∧ (scrape_chunk oracleNone ["a", "b", "c"] 0 2).1.saves.getLast?
        = some 2 :=
  have h := scrape_chunk_cursor oracleNone ["a", "b", "c"] 0 2
    (by decide) (by decide)
  ⟨h.1.trans (by decide), (h.2.2.2 (by decide)).trans (by decide)⟩

/-- C2: as claimed, if the scraper raises on the link at global index `g` of the
chunk, the runner still persists the cursor `g + 1`, still attempts the
link (and every other link of the slice), and the result/row buffers hold
exactly the contributions of the successful attempts, in order — so
earlier and later links' results are retained and one failure never
aborts the chunk. -/
theorem scrape_chunk_failure_isolated (o : Oracle) (links : List String)
    (s k g : Nat) (hs : s ≤ links.length) (hk : 0 < k)
    (hg1 : s ≤ g) (hg2 : g < min (s + k) links.length)
    (hfail : o g (links.getD g "") = none) :
    ((g + 1) ∈ (scrape_chunk o links s k).1.saves)
    ∧ (g, links.getD g "") ∈ (scrape_chunk o links s k).1.attempts
    ∧ (scrape_chunk o links s k).1.results
        = ((scrape_chunk o links s k).1.attempts).filterMap
            (fun p => (o p.1 p.2).map mkChunkResult)
    ∧ (scrape_chunk o links s k).1.rows
        = ((scrape_chunk o links s k).1.attempts).flatMap
            (fun p => ((o p.1 p.2).map mkRows).getD [])
    ∧ ∀ p ∈ (scrape_chunk o links s k).1.attempts, ∀ res,
        o p.1 p.2 = some res
          → mkChunkResult res ∈ (scrape_chunk o links s k).1.results := by
  have hem : min (s + k) links.length ≤ links.length := min_le_right _ _
  have hgm : g < links.length := lt_of_lt_of_le hg2 hem
  have hlen : ((links.drop s).take (min (s + k) links.length - s)).length
      = min (s + k) links.length - s := by
    rw [List.length_take, List.length_drop]
    omega
  have hout : (scrape_chunk o links s k).1
      = chunkLoop o s ((links.drop s).take (min (s + k) links.length - s)) :=
    rfl
  rw [hout, chunkLoop_eq, hlen]
  refine ⟨?_, ?_, rfl, rfl, ?_⟩
  · exact List.mem_range'.mpr ⟨g - s, by omega, by omega⟩
  · have hzl : ((List.range' s (min (s + k) links.length - s)).zip
        ((links.drop s).take (min (s + k) links.length - s))).length
        = min (s + k) links.length - s := by
      rw [List.length_zip, List.length_range', hlen]
      omega
    have hi : g - s < ((List.range' s (min (s + k) links.length - s)).zip
        ((links.drop s).take (min (s + k) links.length - s))).length := by
      omega
    have hidx : s + (g - s) = g := by omega
    have hget : ((List.range' s (min (s + k) links.length - s)).zip
        ((links.drop s).take (min (s + k) links.length - s))).get ⟨g - s, hi⟩
        = (g, links.getD g "") := by
      rw [List.get_eq_getElem, List.getElem_zip, Prod.mk.injEq]
      refine ⟨?_, ?_⟩
      · rw [List.getElem_range']
        show s + 1 * (g - s) = g
        omega
      · rw [List.getElem_take, List.getElem_drop,
          List.getD_eq_getElem?_getD, List.getElem?_eq_getElem hgm]
        simp [hidx]
    exact hget ▸ List.get_mem _ _ _
  · intro p hp res hres
    exact List.mem_filterMap.mpr ⟨p, hp, by rw [hres]; rfl⟩

/-- Witness for C2: two links, failure at global index 0, success at 1;
the cursor save 1 happens and the buffers keep link 1's contribution. -/
theorem scrape_chunk_failure_isolated_witness :
    ((0 + 1) ∈ (scrape_chunk oracleFail0 ["a", "b"] 0 2).1.saves)
    ∧ (0, (["a", "b"] : List String).getD 0 "")
        ∈ (scrape_chunk oracleFail0 ["a", "b"] 0 2).1.attempts :=
  have h := scrape_chunk_failure_isolated oracleFail0 ["a", "b"] 0 2 0
    (by decide) (by decide) (by decide) (by decide) (by decide)
  ⟨h.1, h.2.1⟩

/-- C3 fails on the code: the chunk runner passes `profile_dir`, a
keyword `scrape_google_maps_reviews` does not declare, so every
invocation raises `TypeError` (caught by the per-link handler) rather
than only failing for scraping reasons. -/
theorem scrape_call_keyword_mismatch :
    "profile_dir" ∈ scrapeCallKeywords
    ∧ "profile_dir" ∉ scraperParams
    ∧ ¬ callKeywordsAccepted := by
  refine ⟨by decide, by decide, fun h => ?_⟩
  exact absurd (h "profile_dir" (by decide)) (by decide)

theorem dropDuplicates_map_eq (key_cols : List String) :
    ∀ (rows : List Row) (seen : List (List (Option String))),
      (dropDuplicates key_cols seen rows).map (rowKeyOf key_cols)
        = firstOccs ((rows.map (rowKeyOf key_cols)).filter
            (fun t => decide (t ∉ seen)))
  | [], _ => rfl
  | r :: rest, seen => by
    by_cases hseen : rowKeyOf key_cols r ∈ seen
    · rw [dropDuplicates, if_pos hseen, List.map_cons,
        List.filter_cons_of_neg (by simp [hseen]),
        dropDuplicates_map_eq key_cols rest seen]
    · rw [dropDuplicates, if_neg hseen, List.map_cons, List.map_cons,
        List.filter_cons_of_pos (by simp [hseen])]
      show rowKeyOf key_cols r :: _ = _ :: ((firstOccs _).filter _)
      rw [dropDuplicates_map_eq key_cols rest
        (rowKeyOf key_cols r :: seen), ← filter_firstOccs, List.filter_filter]
      refine congrArg (rowKeyOf key_cols r :: ·) ?_
      refine congrArg _ (List.filter_congr ?_).symm
      intro t _
      by_cases h1 : t = rowKeyOf key_cols r <;> by_cases h2 : t ∈ seen <;>
        simp [h1, h2, List.mem_cons]

theorem dropDuplicates_sublist (key_cols : List String) :
    ∀ (rows : List Row) (seen : List (List (Option String))),
      (dropDuplicates key_cols seen rows).Sublist rows
  | [], _ => List.Sublist.refl _
  | r :: rest, seen => by
    rw [dropDuplicates]
    by_cases hseen : rowKeyOf key_cols r ∈ seen
    · rw [if_pos hseen]
      exact (dropDuplicates_sublist key_cols rest seen).cons _
    · rw [if_neg hseen]
      exact (dropDuplicates_sublist key_cols rest _).cons₂ _

/-- The row `firstRowWith` returns bears the requested key tuple. -/
theorem firstRowWith_key {key_cols : List String} :
    ∀ {rows : List Row} {t : List (Option String)} {r : Row},
      firstRowWith key_cols rows t = some r → rowKeyOf key_cols r = t
  | [], _, _, h => by simp [firstRowWith] at h
  | x :: rest, t, r, h => by
    rw [firstRowWith] at h
    by_cases hx : rowKeyOf key_cols x = t
    · rw [if_pos hx] at h
      obtain rfl : x = r := by injection h
      exact hx
    · rw [if_neg hx] at h
      exact firstRowWith_key h

/-- Row-level characterisation of `drop_duplicates(keep="first")`: the
output is, for each key tuple in first-encounter order, the *first* input
row bearing that tuple. -/
theorem dropDuplicates_eq_firstRows (key_cols : List String) :
    ∀ (rows : List Row) (seen : List (List (Option String))),
      dropDuplicates key_cols seen rows
        = (firstOccs ((rows.map (rowKeyOf key_cols)).filter
            (fun t => decide (t ∉ seen)))).filterMap
              (firstRowWith key_cols rows)
  | [], _ => rfl
  | r :: rest, seen => by
    by_cases hseen : rowKeyOf key_cols r ∈ seen
    · rw [dropDuplicates, if_pos hseen, List.map_cons,
        List.filter_cons_of_neg (by simp [hseen]),
        dropDuplicates_eq_firstRows key_cols rest seen]
      refine filterMap_congr_on ?_
      intro t ht
      obtain ⟨-, ht2⟩ := List.mem_filter.mp (mem_firstOccs.mp ht)
      have htne : ¬ rowKeyOf key_cols r = t := fun h =>
        (decide_eq_true_eq.mp ht2) (h ▸ hseen)
      show firstRowWith key_cols rest t
          = if rowKeyOf key_cols r = t then some r
            else firstRowWith key_cols rest t
      rw [if_neg htne]
    · rw [dropDuplicates, if_neg hseen, List.map_cons,
        List.filter_cons_of_pos (by simp [hseen])]
      have hhead : firstRowWith key_cols (r :: rest) (rowKeyOf key_cols r)
          = some r := by
        show (if rowKeyOf key_cols r = rowKeyOf key_cols r then some r
              else firstRowWith key_cols rest (rowKeyOf key_cols r)) = some r
        rw [if_pos rfl]
      show r :: dropDuplicates key_cols (rowKeyOf key_cols r :: seen) rest
          = (firstOccs (rowKeyOf key_cols r
              :: (rest.map (rowKeyOf key_cols)).filter
                  (fun t => decide (t ∉ seen)))).filterMap
              (firstRowWith key_cols (r :: rest))
      show r :: dropDuplicates key_cols (rowKeyOf key_cols r :: seen) rest
          = (rowKeyOf key_cols r
              :: (firstOccs ((rest.map (rowKeyOf key_cols)).filter
                  (fun t => decide (t ∉ seen)))).filter
                    (· ≠ rowKeyOf key_cols r)).filterMap
              (firstRowWith key_cols (r :: rest))
      simp only [List.filterMap_cons, hhead]
      rw [dropDuplicates_eq_firstRows key_cols rest
        (rowKeyOf key_cols r :: seen)]
      refine congrArg (r :: ·) ?_
      rw [← filter_firstOccs, List.filter_filter]
      have hfeq : ((rest.map (rowKeyOf key_cols)).filter
          (fun t => decide (t ≠ rowKeyOf key_cols r) && decide (t ∉ seen)))
          = ((rest.map (rowKeyOf key_cols)).filter
              (fun t => decide (t ∉ rowKeyOf key_cols r :: seen))) := by
        refine List.filter_congr ?_
        intro t _
        by_cases h1 : t = rowKeyOf key_cols r <;> by_cases h2 : t ∈ seen <;>
          simp [h1, h2, List.mem_cons]
      rw [hfeq]
      refine filterMap_congr_on ?_
      intro t ht
      obtain ⟨-, ht2⟩ := List.mem_filter.mp (mem_firstOccs.mp ht)
      have htne : ¬ rowKeyOf key_cols r = t := by
        intro h
        exact (decide_eq_true_eq.mp ht2) (h ▸ List.mem_cons_self _ _)
      show firstRowWith key_cols rest t
          = if rowKeyOf key_cols r = t then some r
            else firstRowWith key_cols rest t
      rw [if_neg htne]

/-- C7 fails on the code: with an *empty* existing table the merge
returns the new rows untouched, so two identical rows — key columns
present and all — survive; the empty-existing shortcut is a second,
unstated exception to deduplication. -/
theorem merge_csv_dup_counterexample :
    (merge_master_csv ⟨[], []⟩ [rDup, rDup]).rows = [rDup, rDup]
    ∧ keyColumns.all
        (fun c => c ∈ (merge_master_csv ⟨[], []⟩ [rDup, rDup]).cols) = true
    ∧ (merge_master_csv ⟨[], []⟩ [rDup, rDup]).rows.map
        (rowKeyOf keyColumns)
        = [[some "u", some "n", some "t", some "x"],
           [some "u", some "n", some "t", some "x"]]
    ∧ ¬ ((merge_master_csv ⟨[], []⟩ [rDup, rDup]).rows.map
          (rowKeyOf keyColumns)).Nodup := by
  refine ⟨by decide, by decide, by decide, by decide⟩

/-- C7 amended: when the existing table is non-empty and at least
one key column appears in the concatenated data, no two output rows share
a key tuple, and for each key tuple the row kept is the *first* row of
the concatenation bearing it (existing rows first, so an existing row
always beats a new row with the same tuple); the output is a sublist of
the concatenation.  No deduplication happens when the key columns are all
absent — or when the existing table is empty. -/
theorem merge_csv_dedup (existing_df : DFrame) (new_rows : List Row)
    (hne : dfEmpty existing_df = false)
    (hkc : (keyColsOf existing_df new_rows).isEmpty = false) :
    ((merge_master_csv existing_df new_rows).rows.map
        (rowKeyOf (keyColsOf existing_df new_rows))).Nodup
    ∧ (merge_master_csv existing_df new_rows).rows.map
        (rowKeyOf (keyColsOf existing_df new_rows))
        = firstOccs ((combinedOf existing_df new_rows).rows.map
            (rowKeyOf (keyColsOf existing_df new_rows)))
    ∧ (merge_master_csv existing_df new_rows).rows.Sublist
        (combinedOf existing_df new_rows).rows
    ∧ (merge_master_csv existing_df new_rows).cols
        = (combinedOf existing_df new_rows).cols
    ∧ (merge_master_csv existing_df new_rows).rows
        = (firstOccs ((combinedOf existing_df new_rows).rows.map
            (rowKeyOf (keyColsOf existing_df new_rows)))).filterMap
              (firstRowWith (keyColsOf existing_df new_rows)
                (combinedOf existing_df new_rows).rows)
    ∧ ∀ r ∈ (merge_master_csv existing_df new_rows).rows,
        firstRowWith (keyColsOf existing_df new_rows)
          (combinedOf existing_df new_rows).rows
          (rowKeyOf (keyColsOf existing_df new_rows) r) = some r := by
  have hm : merge_master_csv existing_df new_rows
      = { cols := (combinedOf existing_df new_rows).cols
          rows := dropDuplicates (keyColsOf existing_df new_rows) []
            (combinedOf existing_df new_rows).rows } := by
    rw [merge_master_csv, hne]
    rw [if_neg (by simp)]
    rw [hkc]
    rw [if_neg (by simp)]
  rw [hm]
  have hfilter : (((combinedOf existing_df new_rows).rows.map
      (rowKeyOf (keyColsOf existing_df new_rows))).filter
        (fun t => decide (t ∉ ([] : List (List (Option String)))))) =
      ((combinedOf existing_df new_rows).rows.map
        (rowKeyOf (keyColsOf existing_df new_rows))) :=
    List.filter_eq_self.mpr (fun t _ => by simp)
  have heq := dropDuplicates_map_eq (keyColsOf existing_df new_rows)
    (combinedOf existing_df new_rows).rows []
  rw [hfilter] at heq
  have heqRows := dropDuplicates_eq_firstRows (keyColsOf existing_df new_rows)
    (combinedOf existing_df new_rows).rows []
  rw [hfilter] at heqRows
  refine ⟨heq ▸ nodup_firstOccs _, heq, dropDuplicates_sublist _ _ _, rfl,
    heqRows, ?_⟩
  intro r hr
  rw [heqRows] at hr
  obtain ⟨t, _, hfr⟩ := List.mem_filterMap.mp hr
  rw [firstRowWith_key hfr]
  exact hfr

/-- Witness for the amended C7: existing row `rowA` and new row `rowB`
share a key tuple but differ in a non-key column; the merge keeps exactly
the existing (first) row. -/
theorem merge_csv_dedup_witness :
    ((merge_master_csv ⟨keyColumns ++ ["place_name"], [rowA]⟩ [rowB]).rows.map
        (rowKeyOf (keyColsOf ⟨keyColumns ++ ["place_name"], [rowA]⟩
          [rowB]))).Nodup
    ∧ (merge_master_csv ⟨keyColumns ++ ["place_name"], [rowA]⟩ [rowB]).rows
        = [rowA]
    ∧ firstRowWith (keyColsOf ⟨keyColumns ++ ["place_name"], [rowA]⟩ [rowB])
        (combinedOf ⟨keyColumns ++ ["place_name"], [rowA]⟩ [rowB]).rows
        (rowKeyOf (keyColsOf ⟨keyColumns ++ ["place_name"], [rowA]⟩ [rowB])
          rowA)
        = some rowA :=
  have h := merge_csv_dedup ⟨keyColumns ++ ["place_name"], [rowA]⟩ [rowB]
    (by decide) (by decide)
  ⟨h.1, by decide, h.2.2.2.2.2 rowA (by decide)⟩

theorem strLoop_eq :
    ∀ (l : List J) (seen : List String),
      strLoop seen l
        = firstOccs ((l.filterMap asStr).filter (fun s => decide (s ∉ seen)))
  | [], _ => rfl
  | x :: rest, seen => by
    cases hx : asStr x with
    | none =>
      have hskip : strLoop seen (x :: rest) = strLoop seen rest := by
        cases x <;> simp_all [strLoop, asStr]
      rw [hskip, List.filterMap_cons, hx, strLoop_eq rest seen]
    | some s =>
      obtain rfl : x = J.jstr s := by
        cases x <;> simp_all [asStr]
      rw [List.filterMap_cons, hx]
      by_cases hseen : s ∈ seen
      · rw [List.filter_cons_of_neg (by simp [hseen])]
        show (if s ∈ seen then strLoop seen rest else _) = _
        rw [if_pos hseen, strLoop_eq rest seen]
      · rw [List.filter_cons_of_pos (by simp [hseen])]
        show (if s ∈ seen then _ else s :: strLoop (s :: seen) rest) = _
        rw [if_neg hseen]
        show s :: strLoop (s :: seen) rest
            = firstOccs (s :: (rest.filterMap asStr).filter
                (fun v => decide (v ∉ seen)))
        rw [strLoop_eq rest (s :: seen)]
        show s :: firstOccs _ = s :: (firstOccs _).filter (· ≠ s)
        rw [← filter_firstOccs, List.filter_filter]
        refine congrArg (s :: ·) (congrArg firstOccs (List.filter_congr ?_))
        intro v _
        by_cases h1 : v = s <;> by_cases h2 : v ∈ seen <;>
          simp [h1, h2, List.mem_cons]

/-- C9: as claimed, `load_links` fails on an absent artifact, fails on parsed
content that is not an array, and on an array returns exactly its string
entries with duplicates removed, first occurrences first; non-string
entries are dropped silently, never causing a failure. -/
theorem load_links_spec :
    (∃ msg, load_links .missing = .error msg)
    ∧ (∀ j : J, (∀ l, j ≠ .jarr l) →
        ∃ msg, load_links (.content j) = .error msg)
    ∧ (∀ l : List J,
        load_links (.content (.jarr l))
          = .ok (firstOccs (l.filterMap asStr))) := by
  refine ⟨⟨"FileNotFoundError", rfl⟩, ?_, ?_⟩
  · intro j hj
    cases j with
    | jarr l => exact absurd rfl (hj l)
    | jnull => exact ⟨"ValueError", rfl⟩
    | jbool b => exact ⟨"ValueError", rfl⟩
    | jint n => exact ⟨"ValueError", rfl⟩
    | jnum lit => exact ⟨"ValueError", rfl⟩
    | jstr s => exact ⟨"ValueError", rfl⟩
    | jobj entries => exact ⟨"ValueError", rfl⟩
  · intro l
    show Except.ok (strLoop [] l) = _
    rw [strLoop_eq l []]
    have h : ((l.filterMap asStr).filter
        (fun s => decide (s ∉ ([] : List String)))) = l.filterMap asStr :=
      List.filter_eq_self.mpr (fun v _ => by simp)
    rw [h]

/-- Witness for C9: a non-array artifact errors; a concrete mixed array
keeps `"a"`, `"b"` once each, dropping the non-string entry. -/
theorem load_links_spec_witness :
    (∃ msg, load_links (.content (.jobj [])) = .error msg)
    ∧ load_links (.content (.jarr
        [.jstr "a", .jint 1, .jstr "a", .jstr "b"]))
        = .ok (firstOccs ([J.jstr "a", J.jint 1, J.jstr "a",
            J.jstr "b"].filterMap asStr))
    ∧ firstOccs ([J.jstr "a", J.jint 1, J.jstr "a",
        J.jstr "b"].filterMap asStr) = ["a", "b"] :=
  have h := load_links_spec
  ⟨h.2.1 (.jobj []) (fun l h2 => nomatch h2),
   h.2.2 [.jstr "a", .jint 1, .jstr "a", .jstr "b"], by decide⟩

/-- C8 fails on the code in its last part: a well-formed artifact
storing a *negative* integer is returned unchanged, so the returned
`next_index` is not always non-negative. -/
theorem load_state_negative_counterexample :
    load_state (.content (.jobj [("next_index", .jint (-1))]))
      = [("next_index", J.jint (-1))]
    ∧ (-1 : Int) < 0 :=
  ⟨rfl, by decide⟩

/-- C8 amended: `load_state` is total (never raises) and returns
the zero state `{next_index: 0}` on every malformed artifact — missing,
unreadable, non-JSON, non-object JSON, object without `next_index`, or
`next_index` of a non-int type; consequently the returned `next_index`
is then `0`.  A negative `next_index` can only be returned when the
artifact itself is a well-formed object storing it, which is returned
unchanged. -/
theorem load_state_malformed_zero :
    load_state .missing = zeroState
    ∧ load_state .unreadable = zeroState
    ∧ load_state .notJson = zeroState
    ∧ (∀ j : J, (∀ entries, j ≠ .jobj entries) →
        load_state (.content j) = zeroState)
    ∧ (∀ entries : List (String × J),
        entries.lookup "next_index" = none →
        load_state (.content (.jobj entries)) = zeroState)
    ∧ (∀ (entries : List (String × J)) (v : J),
        entries.lookup "next_index" = some v → isPyInt v = false →
        load_state (.content (.jobj entries)) = zeroState)
    ∧ (∀ (a : Artifact) (n : Int),
        (load_state a).lookup "next_index" = some (.jint n) → n < 0 →
        a = .content (.jobj (load_state a))) := by
  refine ⟨rfl, rfl, rfl, ?_, ?_, ?_, ?_⟩
  · intro j hj
    cases j with
    | jobj entries => exact absurd rfl (hj entries)
    | jnull => rfl
    | jbool b => rfl
    | jint n => rfl
    | jnum lit => rfl
    | jstr s => rfl
    | jarr l => rfl
  · intro entries hlook
    show (match entries.lookup "next_index" with
      | some v => if isPyInt v then entries else zeroState
      | none => zeroState) = zeroState
    rw [hlook]
  · intro entries v hlook htype
    show (match entries.lookup "next_index" with
      | some v => if isPyInt v then entries else zeroState
      | none => zeroState) = zeroState
    rw [hlook]
    simp [htype]
  · intro a n hlook hneg
    have hzero : (zeroState.lookup "next_index" = some (J.jint n)) → ¬ n < 0 := by
      intro hz
      have : J.jint 0 = J.jint n := by
        simpa [zeroState, List.lookup] using hz
      obtain rfl : (0 : Int) = n := by injection this
      omega
    cases a with
    | missing => exact absurd hneg (hzero hlook)
    | unreadable => exact absurd hneg (hzero hlook)
    | notJson => exact absurd hneg (hzero hlook)
    | content j =>
      cases j with
      | jobj entries =>
        cases hl : entries.lookup "next_index" with
        | none =>
          have hls : load_state (.content (.jobj entries)) = zeroState := by
            show (match entries.lookup "next_index" with
              | some v => if isPyInt v then entries else zeroState
              | none => zeroState) = zeroState
            rw [hl]
          rw [hls] at hlook
          exact absurd hneg (hzero hlook)
        | some v =>
          cases htype : isPyInt v with
          | false =>
            have hls : load_state (.content (.jobj entries)) = zeroState := by
              show (match entries.lookup "next_index" with
                | some v => if isPyInt v then entries else zeroState
                | none => zeroState) = zeroState
              rw [hl]
              simp [htype]
            rw [hls] at hlook
            exact absurd hneg (hzero hlook)
          | true =>
            have hls : load_state (.content (.jobj entries)) = entries := by
              show (match entries.lookup "next_index" with
                | some v => if isPyInt v then entries else zeroState
                | none => zeroState) = entries
              rw [hl]
              simp [htype]
            rw [hls]
      | jnull => exact absurd hneg (hzero hlook)
      | jbool b => exact absurd hneg (hzero hlook)
      | jint m => exact absurd hneg (hzero hlook)
      | jnum lit => exact absurd hneg (hzero hlook)
      | jstr s => exact absurd hneg (hzero hlook)
      | jarr l => exact absurd hneg (hzero hlook)

/-- Witness for the amended C8 at concrete malformed artifacts: a JSON
array, an object without the key, and a string-typed `next_index`. -/
theorem load_state_malformed_zero_witness :
    load_state (.content (.jarr [])) = zeroState
    ∧ load_state (.content (.jobj [("other", .jint 3)])) = zeroState
    ∧ load_state (.content (.jobj [("next_index", .jstr "5")])) = zeroState :=
  have h := load_state_malformed_zero
  ⟨h.2.2.2.1 (.jarr []) (fun entries h2 => nomatch h2),
   h.2.2.2.2.1 [("other", .jint 3)] rfl,
   h.2.2.2.2.2.1 [("next_index", .jstr "5")] (.jstr "5") rfl rfl⟩

end BatchScrape
